import Mathlib

/-!
Shallow embedding of the text-chunking and resource-upload utilities of the
semiont-agents repository (`src/chunking.ts`, `src/resources.ts`).

JavaScript strings are modelled as `List Char` with character positions as
`Nat` indices; JavaScript numbers used as sizes are modelled as `Int`
(the code is exercised with negative and zero sizes in some claims).
Loops are modelled by fuel-indexed recursion; the fuel supplied by the
wrapper definitions is proved sufficient.
-/

/-- Character class of JavaScript `\s` (also used by `String.prototype.trim`):
whitespace and line terminators. -/
def isWs (c : Char) : Bool :=
  c = ' ' || c = '\t' || c = '\n' || c = '\r' ||
  c = Char.ofNat 0x0B || c = Char.ofNat 0x0C || c = Char.ofNat 0xA0 ||
  c = Char.ofNat 0x1680 || (0x2000 ≤ c.toNat && c.toNat ≤ 0x200A) ||
  c = Char.ofNat 0x2028 || c = Char.ofNat 0x2029 || c = Char.ofNat 0x202F ||
  c = Char.ofNat 0x205F || c = Char.ofNat 0x3000 || c = Char.ofNat 0xFEFF

/-- JavaScript `text.substring(s, e)` for `s ≤ e` (the only way it is called
in `chunking.ts`): the characters at positions `s ≤ k < e`. -/
def extractList (cs : List Char) (s e : Nat) : List Char :=
  (cs.drop s).take (e - s)

/-- JavaScript `String.prototype.trim`: drop leading and trailing
whitespace. -/
def trimList (cs : List Char) : List Char :=
  ((cs.dropWhile isWs).reverse.dropWhile isWs).reverse

/-- One chunk, as produced by `chunking.ts` (`ChunkInfo`). -/
structure ChunkInfo where
  partNumber : Nat
  content : List Char
  title : String
deriving DecidableEq

/-- Greedy match of `(\r?\n)+` at the head of the list: number of
`\r?\n` units matched and total characters consumed.  The regex
`/(\r?\n){2,}/` matches at a position exactly when the unit count here
is at least 2, and then consumes exactly this many characters. -/
def runLen : List Char → Nat × Nat
  | '\r' :: '\n' :: rest => let p := runLen rest; (p.1 + 1, p.2 + 2)
  | '\n' :: rest => let p := runLen rest; (p.1 + 1, p.2 + 1)
  | _ => (0, 0)

/-- Scanner for `paragraphBreakPattern.exec` in `findParagraphBreaks`:
emits, left to right, the position just after each maximal run of two or
more (possibly carriage-return-prefixed) newlines, resuming the scan
after each match exactly as a global regex does.  `i` is the absolute
position of the head of `cs`; the fuel dominates `cs.length`. -/
def breaksAux : Nat → List Char → Nat → List Nat
  | 0, _, _ => []
  | _ + 1, [], _ => []
  | fuel + 1, c :: rest, i =>
    let p := runLen (c :: rest)
    if 2 ≤ p.1 then
      (i + p.2) :: breaksAux fuel (List.drop (p.2 - 1) rest) (i + p.2)
    else
      breaksAux fuel rest (i + 1)

/-- `findParagraphBreaks` from `chunking.ts`: position 0, then the position
after each run of 2+ newlines, then the text length. -/
def findParagraphBreaks (text : List Char) : List Nat :=
  0 :: (breaksAux text.length text 0 ++ [text.length])

/-- The loop of `findBestBreakPoint`: scan the break points with the
latched boolean `found` and current `best`, skipping points at or before
`startPos`, latching on points at or before `targetEnd`, and stopping at
the first point past `targetEnd`. -/
def fbbGo (startPos : Nat) (targetEnd : Int) : List Nat → Nat → Bool → Nat
  | [], best, _ => best
  | bp :: rest, best, found =>
    if bp ≤ startPos then fbbGo startPos targetEnd rest best found
    else if (bp : Int) ≤ targetEnd then fbbGo startPos targetEnd rest bp true
    else if found then best else bp

/-- `findBestBreakPoint` from `chunking.ts`: the initial `bestBreak` is the
last break point (the list built by `findParagraphBreaks` is never empty). -/
def findBestBreakPoint (breakPoints : List Nat) (startPos : Nat) (targetEnd : Int) : Nat :=
  fbbGo startPos targetEnd breakPoints (breakPoints.getLastD 0) false

/-- Body of the whitespace-skipping loop of `chunkText`, with fuel:
`while (startPos < bestBreak && /\s/.test(text[startPos])) startPos++`.
Out-of-range access yields `undefined`, which does not test as whitespace,
hence the non-whitespace default character. -/
def skipWsAux (text : List Char) (stop : Nat) : Nat → Nat → Nat
  | 0, s => s
  | fuel + 1, s =>
    if s < stop ∧ isWs (text.getD s 'x') then skipWsAux text stop fuel (s + 1) else s

/-- The whitespace-skipping loop of `chunkText`: each pass increments `s`
and stops at `stop` at the latest, so `stop - s` fuel always suffices. -/
def skipWs (text : List Char) (stop s : Nat) : Nat :=
  skipWsAux text stop (stop - s) s

/-- The loop body of `chunkText`, with fuel; `startPos` and `partNumber`
are the loop variables. -/
def chunkTextAux (text : List Char) (bps : List Nat) (target : Int) (pre : String) :
    Nat → Nat → Nat → List ChunkInfo
  | 0, _, _ => []
  | fuel + 1, startPos, pn =>
    if startPos < text.length then
      let targetEnd : Int := (startPos : Int) + target
      let bestBreak := findBestBreakPoint bps startPos targetEnd
      let s := skipWs text bestBreak startPos
      let content := trimList (extractList text s bestBreak)
      if content.isEmpty then
        chunkTextAux text bps target pre fuel bestBreak pn
      else
        ⟨pn, content, pre ++ " " ++ toString pn⟩ ::
          chunkTextAux text bps target pre fuel bestBreak (pn + 1)
    else []

/-- `chunkText` from `chunking.ts`.  The loop runs at most `text.length`
times because the start position strictly increases (proved below), so
`text.length + 1` fuel is never exhausted. -/
def chunkText (text : List Char) (target : Int) (pre : String) : List ChunkInfo :=
  chunkTextAux text (findParagraphBreaks text) target pre (text.length + 1) 0 1

/-- The loop body of `chunkBySize`, with fuel; `i` and `partNumber` are the
loop variables.  `text.slice(i, i + chunkSize)` for `i ≥ 0` and positive
`chunkSize` is the next `chunkSize` characters from position `i`. -/
def chunkBySizeAux (text : List Char) (size : Int) (pre : String) :
    Nat → Nat → Nat → List ChunkInfo
  | 0, _, _ => []
  | fuel + 1, i, pn =>
    if i < text.length then
      ⟨pn, (text.drop i).take size.toNat, pre ++ " " ++ toString pn⟩ ::
        chunkBySizeAux text size pre fuel (i + size.toNat) (pn + 1)
    else []

/-- `chunkBySize` from `chunking.ts`.  For positive `size` the loop runs at
most `text.length` times (`i` advances by `size ≥ 1`), so the fuel is never
exhausted; for `size ≤ 0` the JavaScript loop does not terminate. -/
def chunkBySize (text : List Char) (size : Int) (pre : String) : List ChunkInfo :=
  chunkBySizeAux text size pre (text.length + 1) 0 1

/-! ### Properties of the paragraph-break scanner -/

theorem runLen_le (cs : List Char) :
    (runLen cs).1 ≤ (runLen cs).2 ∧ (runLen cs).2 ≤ cs.length := by
  induction cs using runLen.induct <;> simp [runLen] <;> omega

theorem breaksAux_mem {fuel : Nat} {cs : List Char} {i p : Nat}
    (hp : p ∈ breaksAux fuel cs i) : i < p ∧ p ≤ i + cs.length := by
  induction fuel generalizing cs i with
  | zero => simp [breaksAux] at hp
  | succ fuel ih =>
    cases cs with
    | nil => simp [breaksAux] at hp
    | cons c rest =>
      have hrl := runLen_le (c :: rest)
      by_cases h2 : 2 ≤ (runLen (c :: rest)).1
      · simp only [breaksAux, h2, if_true, List.mem_cons] at hp
        rcases hp with hp | hp
        · subst hp; simp at hrl ⊢; omega
        · have := ih hp
          simp [List.length_drop] at this hrl ⊢
          omega
      · simp only [breaksAux, h2, if_false] at hp
        have := ih hp
        simp at this ⊢
        omega

theorem breaksAux_sorted (fuel : Nat) (cs : List Char) (i : Nat) :
    List.Pairwise (· < ·) (breaksAux fuel cs i) := by
  induction fuel generalizing cs i with
  | zero => simp [breaksAux]
  | succ fuel ih =>
    cases cs with
    | nil => simp [breaksAux]
    | cons c rest =>
      by_cases h2 : 2 ≤ (runLen (c :: rest)).1
      · simp only [breaksAux, h2, if_true]
        rw [List.pairwise_cons]
        exact ⟨fun p hp => (breaksAux_mem hp).1, ih _ _⟩
      · simp only [breaksAux, h2, if_false]
        exact ih _ _

theorem fpb_mem_le {text : List Char} {p : Nat} (hp : p ∈ findParagraphBreaks text) :
    p ≤ text.length := by
  simp only [findParagraphBreaks, List.mem_cons, List.mem_append] at hp
  rcases hp with rfl | hp | hp
  · exact Nat.zero_le _
  · have := breaksAux_mem hp; omega
  · simp at hp; omega

theorem fpb_sorted (text : List Char) :
    List.Pairwise (· ≤ ·) (findParagraphBreaks text) := by
  rw [findParagraphBreaks, List.pairwise_cons]
  refine ⟨fun p _ => Nat.zero_le _, ?_⟩
  rw [List.pairwise_append]
  refine ⟨(breaksAux_sorted _ _ _).imp le_of_lt, List.pairwise_singleton _ _, ?_⟩
  intro a ha b hb
  rw [List.mem_singleton] at hb
  subst hb
  have := breaksAux_mem ha
  omega

theorem fpb_mem_len (text : List Char) : text.length ∈ findParagraphBreaks text := by
  simp [findParagraphBreaks]

theorem fpb_getLastD (text : List Char) :
    (findParagraphBreaks text).getLastD 0 = text.length := by
  rw [findParagraphBreaks, List.getLastD_cons, List.getLastD_eq_getLast?,
    List.getLast?_concat]
  rfl

/-! ### Characterization of the break-point selection loop -/

theorem fbbGo_all_le {s : Nat} {tE : Int} {l : List Nat}
    (hall : ∀ bp ∈ l, bp ≤ s) (best : Nat) (found : Bool) :
    fbbGo s tE l best found = best := by
  induction l generalizing best found with
  | nil => rfl
  | cons a l ih =>
    have ha : a ≤ s := hall a (List.mem_cons_self a l)
    simp only [fbbGo, if_pos ha]
    exact ih (fun bp hbp => hall bp (List.mem_cons_of_mem a hbp)) best found

theorem fbbGo_true {s : Nat} {tE : Int} {l : List Nat}
    (hs : List.Pairwise (· ≤ ·) l) (best : Nat)
    (hb1 : s < best) (hb2 : (best : Int) ≤ tE) (hmono : ∀ x ∈ l, best ≤ x) :
    (fbbGo s tE l best true = best ∨ fbbGo s tE l best true ∈ l) ∧
    s < fbbGo s tE l best true ∧ ((fbbGo s tE l best true : Int) ≤ tE) ∧
    best ≤ fbbGo s tE l best true ∧
    ∀ bp ∈ l, s < bp → (bp : Int) ≤ tE → bp ≤ fbbGo s tE l best true := by
  induction l generalizing best with
  | nil =>
    refine ⟨Or.inl rfl, hb1, hb2, le_refl _, ?_⟩
    intro bp hbp
    simp at hbp
  | cons a l ih =>
    rw [List.pairwise_cons] at hs
    obtain ⟨ha, hl⟩ := hs
    have hba : best ≤ a := hmono a (List.mem_cons_self a l)
    have has : ¬ a ≤ s := by omega
    by_cases hat : (a : Int) ≤ tE
    · simp only [fbbGo, if_neg has, if_pos hat]
      obtain ⟨h1, h2, h3, h4, h5⟩ := ih hl a (by omega) hat ha
      refine ⟨?_, h2, h3, le_trans hba h4, ?_⟩
      · rcases h1 with h1 | h1
        · exact Or.inr (by rw [h1]; exact List.mem_cons_self a l)
        · exact Or.inr (List.mem_cons_of_mem a h1)
      · intro bp hbp hbp1 hbp2
        rcases List.mem_cons.mp hbp with rfl | hbp
        · exact h4
        · exact h5 bp hbp hbp1 hbp2
    · have hgo : fbbGo s tE (a :: l) best true = best := by
        simp only [fbbGo, if_neg has, if_neg hat]
        simp
      rw [hgo]
      refine ⟨Or.inl rfl, hb1, hb2, le_refl _, ?_⟩
      intro bp hbp hbp1 hbp2
      rcases List.mem_cons.mp hbp with rfl | hbp
      · omega
      · have hab : a ≤ bp := ha bp hbp
        omega

theorem fbbGo_false {s : Nat} {tE : Int} {l : List Nat}
    (hs : List.Pairwise (· ≤ ·) l) (best : Nat) :
    ((∃ bp ∈ l, s < bp ∧ (bp : Int) ≤ tE) →
      (fbbGo s tE l best false ∈ l ∧ s < fbbGo s tE l best false ∧
       ((fbbGo s tE l best false : Int) ≤ tE) ∧
       ∀ bp ∈ l, s < bp → (bp : Int) ≤ tE → bp ≤ fbbGo s tE l best false)) ∧
    ((∀ bp ∈ l, s < bp → tE < (bp : Int)) → (∃ bp ∈ l, s < bp) →
      (fbbGo s tE l best false ∈ l ∧ s < fbbGo s tE l best false ∧
       tE < (fbbGo s tE l best false : Int) ∧
       ∀ bp ∈ l, s < bp → fbbGo s tE l best false ≤ bp)) := by
  induction l generalizing best with
  | nil =>
    constructor
    · rintro ⟨bp, hbp, -⟩; simp at hbp
    · rintro - ⟨bp, hbp, -⟩; simp at hbp
  | cons a l ih =>
    rw [List.pairwise_cons] at hs
    obtain ⟨ha, hl⟩ := hs
    by_cases hale : a ≤ s
    · simp only [fbbGo, if_pos hale]
      obtain ⟨ihB, ihC⟩ := ih hl best
      constructor
      · rintro ⟨bp, hbp, hbp1, hbp2⟩
        rcases List.mem_cons.mp hbp with rfl | hbp
        · omega
        · obtain ⟨k1, k2, k3, k4⟩ := ihB ⟨bp, hbp, hbp1, hbp2⟩
          refine ⟨List.mem_cons_of_mem a k1, k2, k3, ?_⟩
          intro bq hbq hbq1 hbq2
          rcases List.mem_cons.mp hbq with rfl | hbq
          · omega
          · exact k4 bq hbq hbq1 hbq2
      · rintro hafter ⟨bp, hbp, hbp1⟩
        rcases List.mem_cons.mp hbp with rfl | hbp
        · omega
        · obtain ⟨k1, k2, k3, k4⟩ :=
            ihC (fun bq hbq h1 => hafter bq (List.mem_cons_of_mem a hbq) h1) ⟨bp, hbp, hbp1⟩
          refine ⟨List.mem_cons_of_mem a k1, k2, k3, ?_⟩
          intro bq hbq hbq1
          rcases List.mem_cons.mp hbq with rfl | hbq
          · omega
          · exact k4 bq hbq hbq1
    · have has : s < a := by omega
      by_cases hat : (a : Int) ≤ tE
      · simp only [fbbGo, if_neg hale, if_pos hat]
        obtain ⟨h1, h2, h3, h4, h5⟩ := fbbGo_true hl a has hat ha
        constructor
        · rintro -
          refine ⟨?_, h2, h3, ?_⟩
          · rcases h1 with h1 | h1
            · rw [h1]; exact List.mem_cons_self a l
            · exact List.mem_cons_of_mem a h1
          · intro bq hbq hbq1 hbq2
            rcases List.mem_cons.mp hbq with rfl | hbq
            · exact h4
            · exact h5 bq hbq hbq1 hbq2
        · intro hafter hex
          have := hafter a (List.mem_cons_self a l) has
          omega
      · have hgo : fbbGo s tE (a :: l) best false = a := by
          simp only [fbbGo, if_neg hale, if_neg hat]
          simp
        rw [hgo]
        constructor
        · rintro ⟨bp, hbp, hbp1, hbp2⟩
          rcases List.mem_cons.mp hbp with rfl | hbp
          · omega
          · have hab : a ≤ bp := ha bp hbp
            omega
        · intro hafter hex
          refine ⟨List.mem_cons_self a l, has, by omega, ?_⟩
          intro bq hbq hbq1
          rcases List.mem_cons.mp hbq with rfl | hbq
          · exact le_refl _
          · exact ha bq hbq

/-- When some break point lies strictly after `s` and at most `tE`,
`findBestBreakPoint` returns the greatest such break point. -/
theorem fbb_inRange {text : List Char} {s : Nat} {tE : Int}
    (hex : ∃ bp ∈ findParagraphBreaks text, s < bp ∧ (bp : Int) ≤ tE) :
    findBestBreakPoint (findParagraphBreaks text) s tE ∈ findParagraphBreaks text ∧
    s < findBestBreakPoint (findParagraphBreaks text) s tE ∧
    ((findBestBreakPoint (findParagraphBreaks text) s tE : Int) ≤ tE) ∧
    ∀ bp ∈ findParagraphBreaks text, s < bp → (bp : Int) ≤ tE →
      bp ≤ findBestBreakPoint (findParagraphBreaks text) s tE :=
  (fbbGo_false (fpb_sorted text) ((findParagraphBreaks text).getLastD 0)).1 hex

/-- When every break point after `s` lies strictly past `tE` but at least one
break point lies after `s`, `findBestBreakPoint` returns the least break
point after `s` (which is also past `tE`). -/
theorem fbb_afterTarget {text : List Char} {s : Nat} {tE : Int}
    (hnone : ∀ bp ∈ findParagraphBreaks text, s < bp → tE < (bp : Int))
    (hex : ∃ bp ∈ findParagraphBreaks text, s < bp) :
    findBestBreakPoint (findParagraphBreaks text) s tE ∈ findParagraphBreaks text ∧
    s < findBestBreakPoint (findParagraphBreaks text) s tE ∧
    tE < (findBestBreakPoint (findParagraphBreaks text) s tE : Int) ∧
    ∀ bp ∈ findParagraphBreaks text, s < bp →
      findBestBreakPoint (findParagraphBreaks text) s tE ≤ bp :=
  (fbbGo_false (fpb_sorted text) ((findParagraphBreaks text).getLastD 0)).2 hnone hex

/-- When no break point lies after `s`, `findBestBreakPoint` returns its
default, the last break point, which is the text length. -/
theorem fbb_default {text : List Char} {s : Nat} {tE : Int}
    (hall : ∀ bp ∈ findParagraphBreaks text, bp ≤ s) :
    findBestBreakPoint (findParagraphBreaks text) s tE = text.length := by
  rw [findBestBreakPoint, fbbGo_all_le hall, fpb_getLastD]

/-- Inside the text, the selected break point is strictly past the start
position and at most the text length — for every target offset, positive
or not. -/
theorem fbb_gt {text : List Char} {s : Nat} {tE : Int} (h : s < text.length) :
    s < findBestBreakPoint (findParagraphBreaks text) s tE ∧
    findBestBreakPoint (findParagraphBreaks text) s tE ≤ text.length := by
  by_cases hex : ∃ bp ∈ findParagraphBreaks text, s < bp ∧ (bp : Int) ≤ tE
  · obtain ⟨h1, h2, -, -⟩ := fbb_inRange hex
    exact ⟨h2, fpb_mem_le h1⟩
  · have hnone : ∀ bp ∈ findParagraphBreaks text, s < bp → tE < (bp : Int) := by
      intro bp hbp hbp1
      by_contra hc
      exact hex ⟨bp, hbp, hbp1, by omega⟩
    obtain ⟨h1, h2, -, -⟩ := fbb_afterTarget hnone ⟨text.length, fpb_mem_len text, h⟩
    exact ⟨h2, fpb_mem_le h1⟩

/-! ### Whitespace skipping, extraction and trimming -/

theorem skipWsAux_ge (text : List Char) (stop : Nat) :
    ∀ fuel s, s ≤ skipWsAux text stop fuel s := by
  intro fuel
  induction fuel with
  | zero => intro s; exact le_refl s
  | succ fuel ih =>
    intro s
    rw [skipWsAux]
    split
    · exact le_trans (by omega) (ih (s + 1))
    · exact le_refl s

theorem skipWs_ge (text : List Char) (stop s : Nat) : s ≤ skipWs text stop s :=
  skipWsAux_ge text stop (stop - s) s

theorem skipWsAux_le (text : List Char) (stop : Nat) :
    ∀ fuel s, s ≤ stop → skipWsAux text stop fuel s ≤ stop := by
  intro fuel
  induction fuel with
  | zero => intro s h; exact h
  | succ fuel ih =>
    intro s h
    rw [skipWsAux]
    split
    · rename_i hc
      exact ih (s + 1) (by omega)
    · exact h

theorem skipWs_le (text : List Char) {stop s : Nat} (h : s ≤ stop) :
    skipWs text stop s ≤ stop :=
  skipWsAux_le text stop (stop - s) s h

theorem skipWsAux_ws (text : List Char) (stop : Nat) :
    ∀ fuel s k, s ≤ k → k < skipWsAux text stop fuel s →
      isWs (text.getD k 'x') = true := by
  intro fuel
  induction fuel with
  | zero => intro s k hk1 hk2; rw [skipWsAux] at hk2; omega
  | succ fuel ih =>
    intro s k hk1 hk2
    rw [skipWsAux] at hk2
    by_cases hc : s < stop ∧ isWs (text.getD s 'x') = true
    · rw [if_pos hc] at hk2
      rcases Nat.eq_or_lt_of_le hk1 with rfl | hk1
      · exact hc.2
      · exact ih (s + 1) k hk1 hk2
    · rw [if_neg hc] at hk2
      omega

theorem skipWs_ws (text : List Char) (stop s : Nat) :
    ∀ k, s ≤ k → k < skipWs text stop s → isWs (text.getD k 'x') = true :=
  skipWsAux_ws text stop (stop - s) s

theorem extractList_split (text : List Char) {s m e : Nat} (h1 : s ≤ m) (h2 : m ≤ e) :
    extractList text s e = extractList text s m ++ extractList text m e := by
  unfold extractList
  conv_lhs => rw [← List.take_append_drop (m - s) ((text.drop s).take (e - s))]
  congr 1
  · rw [List.take_take]
    congr 1
    omega
  · rw [List.drop_take, List.drop_drop]
    congr 1
    · omega
    · congr 1
      omega

theorem drop_eq_extract_append (text : List Char) {s e : Nat} (h : s ≤ e) :
    text.drop s = extractList text s e ++ text.drop e := by
  unfold extractList
  conv_lhs => rw [← List.take_append_drop (e - s) (text.drop s)]
  congr 1
  rw [List.drop_drop]
  congr 1
  omega

theorem extractList_cons {text : List Char} {s e : Nat} (hse : s < e)
    (hsl : s < text.length) :
    extractList text s e = text.getD s 'x' :: extractList text (s + 1) e := by
  unfold extractList
  rw [List.drop_eq_getElem_cons hsl, List.getD_eq_getElem text 'x' hsl]
  have he : e - s = (e - (s + 1)) + 1 := by omega
  rw [he, List.take_succ_cons]

theorem extract_all_ws (text : List Char) (e : Nat) :
    ∀ n s, e - s ≤ n → (∀ k, s ≤ k → k < e → isWs (text.getD k 'x') = true) →
      ∀ c ∈ extractList text s e, isWs c = true := by
  intro n
  induction n with
  | zero =>
    intro s hn _ c hc
    have he : e - s = 0 := by omega
    simp [extractList, he] at hc
  | succ n ih =>
    intro s hn hws c hc
    by_cases hse : s < e
    · by_cases hsl : s < text.length
      · rw [extractList_cons hse hsl] at hc
        rcases List.mem_cons.mp hc with rfl | hc
        · exact hws s (le_refl s) hse
        · exact ih (s + 1) (by omega) (fun k hk1 hk2 => hws k (by omega) hk2) c hc
      · have hd : text.drop s = [] := List.drop_eq_nil_of_le (by omega)
        simp [extractList, hd] at hc
    · have he : e - s = 0 := by omega
      simp [extractList, he] at hc

theorem trimList_sublist (cs : List Char) : (trimList cs).Sublist cs := by
  unfold trimList
  have h1 : (((cs.dropWhile isWs).reverse.dropWhile isWs).reverse).Sublist
      ((cs.dropWhile isWs).reverse.reverse) :=
    List.Sublist.reverse (List.dropWhile_sublist isWs)
  rw [List.reverse_reverse] at h1
  exact h1.trans (List.dropWhile_sublist isWs)

theorem filter_dropWhile_ws (l : List Char) :
    (l.dropWhile isWs).filter (fun c => !isWs c) = l.filter (fun c => !isWs c) := by
  induction l with
  | nil => rfl
  | cons a l ih =>
    by_cases ha : isWs a
    · rw [List.dropWhile_cons_of_pos ha, List.filter_cons_of_neg (by simp [ha])]
      exact ih
    · rw [List.dropWhile_cons_of_neg ha]

theorem filter_trimList (cs : List Char) :
    (trimList cs).filter (fun c => !isWs c) = cs.filter (fun c => !isWs c) := by
  unfold trimList
  rw [List.filter_reverse, filter_dropWhile_ws, List.filter_reverse,
    List.reverse_reverse, filter_dropWhile_ws]

theorem dropWhile_ws_append {pre l : List Char} (hws : ∀ c ∈ pre, isWs c = true) :
    (pre ++ l).dropWhile isWs = l.dropWhile isWs := by
  rw [List.dropWhile_append]
  have h : pre.dropWhile isWs = [] := List.dropWhile_eq_nil_iff.mpr hws
  simp [h]

theorem trimList_ws_append {pre l : List Char} (hws : ∀ c ∈ pre, isWs c = true) :
    trimList (pre ++ l) = trimList l := by
  unfold trimList
  rw [dropWhile_ws_append hws]

theorem extract_drop_sub (text : List Char) {sp s e : Nat} (h1 : sp ≤ s) :
    extractList text s e = (extractList text sp e).drop (s - sp) := by
  unfold extractList
  rw [List.drop_take, List.drop_drop]
  congr 1
  · omega
  · congr 1
    omega

/-! ### The chunking loops -/

theorem chunkTextAux_stop {text : List Char} {bps : List Nat} {target : Int}
    {pre : String} {s : Nat} (fuel pn : Nat) (hs : ¬ s < text.length) :
    chunkTextAux text bps target pre fuel s pn = [] := by
  cases fuel with
  | zero => rfl
  | succ fuel => simp only [chunkTextAux, if_neg hs]

theorem chunkTextAux_step {text : List Char} {bps : List Nat} {target : Int}
    {pre : String} {s : Nat} (fuel pn : Nat) (hs : s < text.length) :
    chunkTextAux text bps target pre (fuel + 1) s pn =
      (if (trimList (extractList text
            (skipWs text (findBestBreakPoint bps s ((s : Int) + target)) s)
            (findBestBreakPoint bps s ((s : Int) + target)))).isEmpty then
        chunkTextAux text bps target pre fuel
          (findBestBreakPoint bps s ((s : Int) + target)) pn
      else
        ⟨pn, trimList (extractList text
            (skipWs text (findBestBreakPoint bps s ((s : Int) + target)) s)
            (findBestBreakPoint bps s ((s : Int) + target))),
          pre ++ " " ++ toString pn⟩ ::
          chunkTextAux text bps target pre fuel
            (findBestBreakPoint bps s ((s : Int) + target)) (pn + 1)) := by
  simp only [chunkTextAux, if_pos hs]

/-- The loop result does not depend on the fuel, as long as the fuel
dominates the number of characters left: each iteration strictly advances
the start position. -/
theorem chunkTextAux_congr (text : List Char) (target : Int) (pre : String) :
    ∀ f1 f2 s pn, text.length ≤ s + f1 → text.length ≤ s + f2 →
      chunkTextAux text (findParagraphBreaks text) target pre f1 s pn =
      chunkTextAux text (findParagraphBreaks text) target pre f2 s pn := by
  intro f1
  induction f1 with
  | zero =>
    intro f2 s pn h1 h2
    have hns : ¬ s < text.length := by omega
    rw [chunkTextAux_stop _ _ hns, chunkTextAux_stop _ _ hns]
  | succ f1 ih =>
    intro f2 s pn h1 h2
    by_cases hs : s < text.length
    · obtain ⟨f2', rfl⟩ : ∃ f2', f2 = f2' + 1 := ⟨f2 - 1, by omega⟩
      have hb := (@fbb_gt text s ((s : Int) + target) hs).1
      rw [chunkTextAux_step _ _ hs, chunkTextAux_step _ _ hs]
      have hrec := fun pn' => ih f2'
        (findBestBreakPoint (findParagraphBreaks text) s ((s : Int) + target)) pn'
        (by omega) (by omega)
      split
      · exact hrec pn
      · rw [hrec (pn + 1)]
    · rw [chunkTextAux_stop _ _ hs, chunkTextAux_stop _ _ hs]

/-- Part numbers are consecutive from the running counter, every title is
the prefix, a space and the chunk's own part number, and every emitted
chunk has nonempty content. -/
theorem chunkTextAux_numbering (text : List Char) (bps : List Nat) (target : Int)
    (pre : String) :
    ∀ fuel s pn,
      (chunkTextAux text bps target pre fuel s pn).map (fun ch => ch.partNumber) =
        List.range' pn (chunkTextAux text bps target pre fuel s pn).length ∧
      ∀ ch ∈ chunkTextAux text bps target pre fuel s pn,
        ch.title = pre ++ " " ++ toString ch.partNumber ∧ ch.content ≠ [] := by
  intro fuel
  induction fuel with
  | zero =>
    intro s pn
    constructor
    · rfl
    · intro ch hch; simp [chunkTextAux] at hch
  | succ fuel ih =>
    intro s pn
    by_cases hs : s < text.length
    · rw [chunkTextAux_step _ _ hs]
      split
      · exact ih _ pn
      · rename_i hc
        obtain ⟨ih1, ih2⟩ := ih (findBestBreakPoint bps s ((s : Int) + target)) (pn + 1)
        constructor
        · simp only [List.map_cons, List.length_cons, List.range'_succ, ih1]
        · intro ch hch
          rcases List.mem_cons.mp hch with rfl | hch
          · refine ⟨rfl, ?_⟩
            intro hnil
            exact hc (List.isEmpty_iff.mpr hnil)
          · exact ih2 ch hch
    · rw [chunkTextAux_stop _ _ hs]
      constructor
      · rfl
      · intro ch hch; simp at hch

theorem chunkBySizeAux_stop {text : List Char} {size : Int} {pre : String} {i : Nat}
    (fuel pn : Nat) (hi : ¬ i < text.length) :
    chunkBySizeAux text size pre fuel i pn = [] := by
  cases fuel with
  | zero => rfl
  | succ fuel => simp only [chunkBySizeAux, if_neg hi]

theorem chunkBySizeAux_step {text : List Char} {size : Int} {pre : String} {i : Nat}
    (fuel pn : Nat) (hi : i < text.length) :
    chunkBySizeAux text size pre (fuel + 1) i pn =
      ⟨pn, (text.drop i).take size.toNat, pre ++ " " ++ toString pn⟩ ::
        chunkBySizeAux text size pre fuel (i + size.toNat) (pn + 1) := by
  simp only [chunkBySizeAux, if_pos hi]

theorem chunkBySizeAux_numbering (text : List Char) (size : Int) (pre : String) :
    ∀ fuel i pn,
      (chunkBySizeAux text size pre fuel i pn).map (fun ch => ch.partNumber) =
        List.range' pn (chunkBySizeAux text size pre fuel i pn).length ∧
      ∀ ch ∈ chunkBySizeAux text size pre fuel i pn,
        ch.title = pre ++ " " ++ toString ch.partNumber := by
  intro fuel
  induction fuel with
  | zero =>
    intro i pn
    exact ⟨rfl, by intro ch hch; simp [chunkBySizeAux] at hch⟩
  | succ fuel ih =>
    intro i pn
    by_cases hi : i < text.length
    · rw [chunkBySizeAux_step _ _ hi]
      obtain ⟨ih1, ih2⟩ := ih (i + size.toNat) (pn + 1)
      constructor
      · simp only [List.map_cons, List.length_cons, List.range'_succ, ih1]
      · intro ch hch
        rcases List.mem_cons.mp hch with rfl | hch
        · exact rfl
        · exact ih2 ch hch
    · rw [chunkBySizeAux_stop _ _ hi]
      exact ⟨rfl, by intro ch hch; simp at hch⟩

/-- The fixed-size loop result does not depend on the fuel, as long as the
fuel times the step covers the characters left (for a non-advancing step
the bound already forces the loop not to run). -/
theorem chunkBySizeAux_congr (text : List Char) (size : Int) (pre : String) :
    ∀ f1 f2 i pn, text.length ≤ i + f1 * size.toNat →
      text.length ≤ i + f2 * size.toNat →
      chunkBySizeAux text size pre f1 i pn = chunkBySizeAux text size pre f2 i pn := by
  intro f1
  induction f1 with
  | zero =>
    intro f2 i pn h1 h2
    have hni : ¬ i < text.length := by omega
    rw [chunkBySizeAux_stop _ _ hni, chunkBySizeAux_stop _ _ hni]
  | succ f1 ih =>
    intro f2 i pn h1 h2
    by_cases hi : i < text.length
    · obtain ⟨f2x, rfl⟩ : ∃ f2x, f2 = f2x + 1 := by
        cases f2 with
        | zero => exact absurd (by omega : text.length ≤ i) (by omega)
        | succ f2x => exact ⟨f2x, rfl⟩
      rw [chunkBySizeAux_step _ _ hi, chunkBySizeAux_step _ _ hi,
        ih f2x (i + size.toNat) (pn + 1) (by nlinarith [Nat.succ_mul f1 size.toNat]) (by nlinarith [Nat.succ_mul f2x size.toNat])]
    · rw [chunkBySizeAux_stop _ _ hi, chunkBySizeAux_stop _ _ hi]

/-- Core reconstruction invariant of the `chunkText` loop: from any start
position, the concatenated chunk contents form a sublist of the remaining
text, and they retain exactly its non-whitespace characters. -/
theorem chunkTextAux_reconstruct (text : List Char) (target : Int) (pre : String) :
    ∀ fuel s pn, text.length ≤ s + fuel →
      ((chunkTextAux text (findParagraphBreaks text) target pre fuel s pn).map
          (fun ch => ch.content)).flatten.Sublist (text.drop s) ∧
      ((chunkTextAux text (findParagraphBreaks text) target pre fuel s pn).map
          (fun ch => ch.content)).flatten.filter (fun c => !isWs c) =
        (text.drop s).filter (fun c => !isWs c) := by
  intro fuel
  induction fuel with
  | zero =>
    intro s pn hf
    have hd : text.drop s = [] := List.drop_eq_nil_of_le (by omega)
    rw [hd]
    exact ⟨List.nil_sublist _, rfl⟩
  | succ fuel ih =>
    intro s pn hf
    by_cases hs : s < text.length
    · obtain ⟨hsb, hble⟩ := @fbb_gt text s ((s : Int) + target) hs
      set b := findBestBreakPoint (findParagraphBreaks text) s ((s : Int) + target) with hbdef
      set s2 := skipWs text b s with hs2def
      have hss2 : s ≤ s2 := skipWs_ge text b s
      have hs2b : s2 ≤ b := skipWs_le text (le_of_lt hsb)
      have hws : ∀ c ∈ extractList text s s2, isWs c = true :=
        extract_all_ws text s2 (s2 - s) s (le_refl _)
          (fun k hk1 hk2 => skipWs_ws text b s k hk1 hk2)
      have hEsb : extractList text s b =
          extractList text s s2 ++ extractList text s2 b :=
        extractList_split text hss2 hs2b
      have hdecomp : text.drop s = extractList text s b ++ text.drop b :=
        drop_eq_extract_append text (le_of_lt hsb)
      have hfil0 : (extractList text s s2).filter (fun c => !isWs c) = [] :=
        List.filter_eq_nil_iff.mpr (fun a ha => by simp [hws a ha])
      have hfilsb : (extractList text s b).filter (fun c => !isWs c) =
          (extractList text s2 b).filter (fun c => !isWs c) := by
        rw [hEsb, List.filter_append, hfil0, List.nil_append]
      have hsubc : (trimList (extractList text s2 b)).Sublist (extractList text s b) := by
        refine (trimList_sublist _).trans ?_
        rw [extract_drop_sub text hss2]
        exact List.drop_sublist _ _
      obtain ⟨ihS, ihF⟩ := ih b pn (by omega)
      have ihS2 := (ih b (pn + 1) (by omega)).1
      have ihF2 := (ih b (pn + 1) (by omega)).2
      rw [chunkTextAux_step _ _ hs]
      split
      · rename_i hc
        have hcnil : trimList (extractList text s2 b) = [] := List.isEmpty_iff.mp hc
        constructor
        · rw [hdecomp]
          exact ihS.trans (List.sublist_append_right _ _)
        · have hz : (extractList text s2 b).filter (fun c => !isWs c) = [] := by
            rw [← filter_trimList, hcnil]
            rfl
          rw [ihF, hdecomp, List.filter_append, hfilsb, hz, List.nil_append]
      · constructor
        · rw [List.map_cons, List.flatten_cons, hdecomp]
          exact hsubc.append ihS2
        · rw [List.map_cons, List.flatten_cons, List.filter_append, filter_trimList,
            ihF2, hdecomp, List.filter_append, hfilsb]
    · have hd : text.drop s = [] := List.drop_eq_nil_of_le (by omega)
      rw [chunkTextAux_stop _ _ hs, hd]
      exact ⟨List.nil_sublist _, rfl⟩

/-! ### Inputs without paragraph breaks -/

/-- Whether the text contains a run of two or more (possibly
carriage-return-prefixed) newlines, i.e. whether `/(\r?\n){2,}/` matches
anywhere in it. -/
def hasDoubleNL (cs : List Char) : Bool :=
  (List.range cs.length).any (fun i => decide (2 ≤ (runLen (cs.drop i)).1))

theorem hasDoubleNL_false {cs : List Char} (h : hasDoubleNL cs = false) :
    ∀ k, (runLen (cs.drop k)).1 < 2 := by
  intro k
  by_cases hk : k < cs.length
  · have := List.any_eq_false.mp h k (List.mem_range.mpr hk)
    simp at this
    omega
  · rw [List.drop_eq_nil_of_le (by omega)]
    simp [runLen]

theorem breaksAux_nil : ∀ (fuel : Nat) (cs : List Char) (i : Nat),
    (∀ k, (runLen (cs.drop k)).1 < 2) → breaksAux fuel cs i = [] := by
  intro fuel
  induction fuel with
  | zero => intro cs i _; rfl
  | succ fuel ih =>
    intro cs i h
    cases cs with
    | nil => rfl
    | cons c rest =>
      have h0 := h 0
      rw [List.drop_zero] at h0
      simp only [breaksAux, if_neg (by omega : ¬ 2 ≤ (runLen (c :: rest)).1)]
      exact ih rest (i + 1) (fun k => by have := h (k + 1); rwa [List.drop_succ_cons] at this)

theorem fpb_no_breaks {text : List Char} (h : hasDoubleNL text = false) :
    findParagraphBreaks text = [0, text.length] := by
  rw [findParagraphBreaks, breaksAux_nil _ _ _ (hasDoubleNL_false h)]
  rfl

/-- On the sentinel-only break list, the selection always lands on the text
length, whatever the target offset. -/
theorem fbb_pair {len : Nat} (hlen : 0 < len) (tE : Int) :
    findBestBreakPoint [0, len] 0 tE = len := by
  rw [findBestBreakPoint]
  have hlast : ([0, len] : List Nat).getLastD 0 = len := by
    rw [List.getLastD_cons, List.getLastD_cons]
    rfl
  rw [hlast]
  simp only [fbbGo, if_pos (le_refl 0), if_neg (by omega : ¬ len ≤ 0)]
  by_cases ht : (len : Int) ≤ tE
  · rw [if_pos ht]
  · rw [if_neg ht]
    rfl

/-- When the first break-point selection from position 0 already lands on
the text length and the trimmed text is nonempty, `chunkText` produces
the single chunk holding the trimmed text. -/
theorem chunkText_single (text : List Char) (target : Int) (pre : String)
    (hb : findBestBreakPoint (findParagraphBreaks text) 0
            (((0 : Nat) : Int) + target) = text.length)
    (hne : trimList text ≠ []) :
    chunkText text target pre = [⟨1, trimList text, pre ++ " " ++ toString 1⟩] := by
  have hlen : 0 < text.length := by
    rcases Nat.eq_zero_or_pos text.length with h0 | h
    · exact absurd (by rw [List.length_eq_zero.mp h0]; rfl) hne
    · exact h
  rw [chunkText, chunkTextAux_step _ _ hlen, hb]
  set s2 := skipWs text text.length 0 with hs2
  have hs2len : s2 ≤ text.length := skipWs_le text (Nat.zero_le _)
  have hext : extractList text s2 text.length = text.drop s2 := by
    unfold extractList
    rw [show text.length - s2 = (text.drop s2).length by rw [List.length_drop],
      List.take_length]
  have hws : ∀ c ∈ extractList text 0 s2, isWs c = true :=
    extract_all_ws text s2 s2 0 (by omega)
      (fun k hk1 hk2 => skipWs_ws text text.length 0 k hk1 hk2)
  have htext : text = extractList text 0 s2 ++ text.drop s2 := by
    have h := @drop_eq_extract_append text 0 s2 (Nat.zero_le _)
    rwa [List.drop_zero] at h
  have htrim : trimList (text.drop s2) = trimList text := by
    conv_rhs => rw [htext]
    rw [trimList_ws_append hws]
  rw [hext, htrim, if_neg (fun hemp => hne (List.isEmpty_iff.mp hemp)),
    chunkTextAux_stop _ _ (lt_irrefl text.length)]

/-! ### Resource uploads (`resources.ts`)

The API client is external: each `client.createResource` call either
resolves with a resource identifier or throws with an error message.  A
run of the upload loop is therefore parameterised by the per-call
outcome, indexed by the loop position. -/

/-- `DocumentInfo` from `resources.ts` (the binary-or-text `content` is a
byte/character list; the optional `metadata` record carries no behaviour
and is omitted). -/
structure DocumentInfo where
  title : String
  content : List Char
  format : Option String
deriving DecidableEq

/-- `UploadFailure` from `resources.ts`. -/
structure UploadFailure where
  title : String
  error : String
deriving DecidableEq

/-- `UploadResult` from `resources.ts`; resource ids are opaque strings. -/
structure UploadResult (α : Type) where
  ids : List String
  uploaded : List α
  failed : List UploadFailure

/-- The shared shape of the `uploadChunks` / `uploadDocuments` loops: walk
the items with a running index, and on each item either record the new id
and the item (the `try` branch) or record a failure with the item's title
and the error message (the `catch` branch) and continue. -/
def uploadLoop {α : Type} (title : α → String) (outcome : Nat → Except String String) :
    List α → Nat → UploadResult α
  | [], _ => ⟨[], [], []⟩
  | x :: xs, i =>
    match outcome i with
    | .ok rid =>
      let r := uploadLoop title outcome xs (i + 1)
      ⟨rid :: r.ids, x :: r.uploaded, r.failed⟩
    | .error e =>
      let r := uploadLoop title outcome xs (i + 1)
      ⟨r.ids, r.uploaded, ⟨title x, e⟩ :: r.failed⟩

/-- `uploadChunks` from `resources.ts`. -/
def uploadChunks (chunks : List ChunkInfo) (outcome : Nat → Except String String) :
    UploadResult ChunkInfo :=
  uploadLoop (fun c => c.title) outcome chunks 0

/-- `uploadDocuments` from `resources.ts`. -/
def uploadDocuments (docs : List DocumentInfo) (outcome : Nat → Except String String) :
    UploadResult DocumentInfo :=
  uploadLoop (fun d => d.title) outcome docs 0

theorem uploadLoop_spec {α : Type} (title : α → String)
    (outcome : Nat → Except String String) :
    ∀ (xs : List α) (i : Nat),
      (uploadLoop title outcome xs i).uploaded =
        (List.enumFrom i xs).filterMap
          (fun p => match outcome p.1 with | .ok _ => some p.2 | .error _ => none) ∧
      (uploadLoop title outcome xs i).failed =
        (List.enumFrom i xs).filterMap
          (fun p => match outcome p.1 with
            | .ok _ => none
            | .error e => some ⟨title p.2, e⟩) ∧
      (uploadLoop title outcome xs i).ids =
        (List.enumFrom i xs).filterMap
          (fun p => match outcome p.1 with | .ok rid => some rid | .error _ => none) ∧
      (uploadLoop title outcome xs i).uploaded.length +
        (uploadLoop title outcome xs i).failed.length = xs.length ∧
      (uploadLoop title outcome xs i).ids.length =
        (uploadLoop title outcome xs i).uploaded.length := by
  intro xs
  induction xs with
  | nil => intro i; exact ⟨rfl, rfl, rfl, rfl, rfl⟩
  | cons x xs ih =>
    intro i
    obtain ⟨ih1, ih2, ih3, ih4, ih5⟩ := ih (i + 1)
    cases ho : outcome i with
    | ok rid =>
      simp only [uploadLoop, ho, List.enumFrom_cons, List.filterMap_cons, List.length_cons]
      exact ⟨by rw [ih1], by rw [ih2], by rw [ih3], by omega, by omega⟩
    | error e =>
      simp only [uploadLoop, ho, List.enumFrom_cons, List.filterMap_cons, List.length_cons]
      exact ⟨by rw [ih1], by rw [ih2], by rw [ih3], by omega, by omega⟩

/-! ### Table-of-contents builders (`resources.ts`)

The generated markdown embeds a wall-clock timestamp; it is passed in as
the parameter `ts`.  The `documentId` of every reference is the empty
string, to be filled by the caller. -/

/-- `TableOfContentsReference` from `resources.ts` (`end` is a reserved
word in Lean; the field is named `stop`). -/
structure TocReference where
  text : List Char
  start : Nat
  stop : Nat
  documentId : String
deriving DecidableEq

/-- The `forEach` loop shared by `createTableOfContents` and
`createDocumentTableOfContents`: append `"{index+1}. {item}\n"` for each
item, recording the span of the item text inside the grown content. -/
def tocLoop : List (List Char) → List Char → Nat → List Char × List TocReference
  | [], content, _ => (content, [])
  | t :: rest, content, index =>
    let numStr := ((toString (index + 1)) ++ ". ").toList
    let listItem := numStr ++ t ++ ['\n']
    let r := tocLoop rest (content ++ listItem) (index + 1)
    (r.1, ⟨t, content.length + numStr.length,
      content.length + numStr.length + t.length, ""⟩ :: r.2)

/-- `createTableOfContents` from `resources.ts`: header, then one numbered
list entry `"Part {partNumber}"` per chunk. -/
def createTableOfContents (chunks : List ChunkInfo) (title ts : String) :
    List Char × List TocReference :=
  tocLoop (chunks.map (fun c => ("Part " ++ toString c.partNumber).toList))
    (("# " ++ title ++ "\n\n" ++ "_Generated: " ++ ts ++ "_\n\n" ++ "## Parts\n\n").toList) 0

/-- `createDocumentTableOfContents` from `resources.ts`: header, then one
numbered list entry per document title. -/
def createDocumentTableOfContents (docs : List DocumentInfo) (title ts : String) :
    List Char × List TocReference :=
  tocLoop (docs.map (fun d => d.title.toList))
    (("# " ++ title ++ "\n\n" ++ "_Generated: " ++ ts ++ "_\n\n" ++ "## Documents\n\n").toList) 0

theorem tocLoop_content_grows : ∀ (items : List (List Char)) (content : List Char)
    (index : Nat), ∃ suffix, (tocLoop items content index).1 = content ++ suffix := by
  intro items
  induction items with
  | nil => intro content index; exact ⟨[], (List.append_nil content).symm⟩
  | cons t rest ih =>
    intro content index
    obtain ⟨sfx, hsfx⟩ := ih (content ++
      (((toString (index + 1)) ++ ". ").toList ++ t ++ ['\n'])) (index + 1)
    refine ⟨(((toString (index + 1)) ++ ". ").toList ++ t ++ ['\n']) ++ sfx, ?_⟩
    simp only [tocLoop]
    rw [hsfx]
    simp [List.append_assoc]

/-- Every reference produced by the table-of-contents loop indexes the
final content correctly: the references are the items in order, and the
half-open span of each reference extracts exactly its text. -/
theorem tocLoop_spec : ∀ (items : List (List Char)) (content : List Char) (index : Nat),
    ((tocLoop items content index).2.map (fun r => r.text) = items) ∧
    (∀ r ∈ (tocLoop items content index).2,
      r.stop ≤ (tocLoop items content index).1.length ∧
      extractList (tocLoop items content index).1 r.start r.stop = r.text) := by
  intro items
  induction items with
  | nil =>
    intro content index
    exact ⟨rfl, by intro r hr; simp [tocLoop] at hr⟩
  | cons t rest ih =>
    intro content index
    obtain ⟨ih1, ih2⟩ := ih (content ++
      (((toString (index + 1)) ++ ". ").toList ++ t ++ ['\n'])) (index + 1)
    obtain ⟨sfx, hsfx⟩ := tocLoop_content_grows rest (content ++
      (((toString (index + 1)) ++ ". ").toList ++ t ++ ['\n'])) (index + 1)
    constructor
    · simp only [tocLoop, List.map_cons, ih1]
    · intro r hr
      simp only [tocLoop, List.mem_cons] at hr
      rcases hr with rfl | hr
      · have hX : (tocLoop (t :: rest) content index).1 =
            (content ++ ((toString (index + 1)) ++ ". ").toList) ++
              (t ++ (['\n'] ++ sfx)) := by
          simp only [tocLoop]
          rw [hsfx]
          simp [List.append_assoc]
        constructor
        · rw [hX]
          simp [List.length_append]
          omega
        · rw [hX, extractList]
          have hstart : content.length + (((toString (index + 1)) ++ ". ").toList).length =
              (content ++ ((toString (index + 1)) ++ ". ").toList).length := by
            rw [List.length_append]
          simp only
          rw [hstart, List.drop_left, Nat.add_sub_cancel_left]
          exact List.take_left t (['\n'] ++ sfx)
      · have hsame : (tocLoop (t :: rest) content index).1 =
            (tocLoop rest (content ++
              (((toString (index + 1)) ++ ". ").toList ++ t ++ ['\n'])) (index + 1)).1 := by
          simp only [tocLoop]
        rw [hsame]
        exact ih2 r hr

/-! ### Concrete inputs used by the claims -/

def sampleText : List Char := "AAAA\n\nBBBB\n\nCCCC".toList

def samplePre : String := "Part"

def sampleParts : List (List Char) := ["AAAA".toList, "BBBB".toList, "CCCC".toList]

def oneSpace : List Char := " ".toList

def twoSpaces : List Char := "  ".toList

def preT : String := "T"

def singleLine : List Char := "hello world".toList

def hundredAs : List Char := List.replicate 100 'a'

/-! ### The claims -/

/-- C1: for every text, positive target size and start position, `chunkText`'s
break-point selection (`findBestBreakPoint` on `findParagraphBreaks`) picks
the last paragraph boundary in `(startPos, startPos + targetSize]`; when no
boundary lies in that range it picks the first boundary strictly after
`startPos + targetSize`, and when no boundary lies after `startPos` at all
it falls back to the text length.  On `"AAAA\n\nBBBB\n\nCCCC"` with target
size 6 the chunker cuts after `"AAAA"`, producing the three paragraphs. -/
theorem chunkText_break_selection (text : List Char) (s : Nat) (target : Int)
    (ht : 0 < target) :
    ((∃ bp ∈ findParagraphBreaks text, s < bp ∧ (bp : Int) ≤ (s : Int) + target) →
      (findBestBreakPoint (findParagraphBreaks text) s ((s : Int) + target) ∈
          findParagraphBreaks text ∧
        s < findBestBreakPoint (findParagraphBreaks text) s ((s : Int) + target) ∧
        ((findBestBreakPoint (findParagraphBreaks text) s ((s : Int) + target) : Int) ≤
          (s : Int) + target) ∧
        ∀ bp ∈ findParagraphBreaks text, s < bp → (bp : Int) ≤ (s : Int) + target →
          bp ≤ findBestBreakPoint (findParagraphBreaks text) s ((s : Int) + target))) ∧
    ((∀ bp ∈ findParagraphBreaks text, ¬(s < bp ∧ (bp : Int) ≤ (s : Int) + target)) →
      ((∃ bp ∈ findParagraphBreaks text, (s : Int) + target < (bp : Int)) →
        (findBestBreakPoint (findParagraphBreaks text) s ((s : Int) + target) ∈
            findParagraphBreaks text ∧
          (s : Int) + target <
            (findBestBreakPoint (findParagraphBreaks text) s ((s : Int) + target) : Int) ∧
          ∀ bp ∈ findParagraphBreaks text, (s : Int) + target < (bp : Int) →
            findBestBreakPoint (findParagraphBreaks text) s ((s : Int) + target) ≤ bp)) ∧
      ((∀ bp ∈ findParagraphBreaks text, (bp : Int) ≤ (s : Int) + target) →
        findBestBreakPoint (findParagraphBreaks text) s ((s : Int) + target) =
          text.length)) ∧
    (chunkText sampleText 6 samplePre).map (fun ch => ch.content) = sampleParts := by
  refine ⟨?_, ?_, ?_⟩
  · intro hex
    exact fbb_inRange hex
  · intro hnoneR
    constructor
    · intro hex
      have hnone : ∀ bp ∈ findParagraphBreaks text, s < bp →
          (s : Int) + target < (bp : Int) := by
        intro bp hbp h1
        have h2 := not_and.mp (hnoneR bp hbp) h1
        omega
      have hex2 : ∃ bp ∈ findParagraphBreaks text, s < bp := by
        obtain ⟨bp, hbp, h1⟩ := hex
        exact ⟨bp, hbp, by omega⟩
      obtain ⟨k1, k2, k3, k4⟩ := fbb_afterTarget hnone hex2
      exact ⟨k1, k3, fun bp hbp h1 => k4 bp hbp (by omega)⟩
    · intro hall
      apply fbb_default
      intro bp hbp
      have h1 := hnoneR bp hbp
      have h2 := hall bp hbp
      by_contra hc
      exact h1 ⟨by omega, h2⟩
  · decide

/-- C1, witness: the characterization instantiated on the sample text at
start position 0 with target size 6. -/
theorem chunkText_break_selection_witness :
    (0 : Int) < 6 ∧
    (chunkText sampleText 6 samplePre).map (fun ch => ch.content) = sampleParts :=
  ⟨by norm_num, (chunkText_break_selection sampleText 0 6 (by norm_num)).2.2⟩

/-- C2: for every text and positive target size, the concatenated chunk
contents of `chunkText` are a sublist of the text (no character is
duplicated or reordered) and retain exactly its non-whitespace characters
(only whitespace is dropped, at chunk boundaries). -/
theorem chunkText_reconstruction (text : List Char) (target : Int) (pre : String)
    (ht : 0 < target) :
    (((chunkText text target pre).map (fun ch => ch.content)).flatten).Sublist text ∧
    ((chunkText text target pre).map (fun ch => ch.content)).flatten.filter
        (fun c => !isWs c) =
      text.filter (fun c => !isWs c) := by
  have h := chunkTextAux_reconstruct text target pre (text.length + 1) 0 1 (by omega)
  rwa [List.drop_zero] at h

/-- C2, witness: reconstruction instantiated on the sample text. -/
theorem chunkText_reconstruction_witness :
    (0 : Int) < 6 ∧
    ((chunkText sampleText 6 samplePre).map (fun ch => ch.content)).flatten.filter
        (fun c => !isWs c) =
      sampleText.filter (fun c => !isWs c) :=
  ⟨by norm_num, (chunkText_reconstruction sampleText 6 samplePre (by norm_num)).2⟩

/-- C3, counterexample: a single space has no double-newline run, yet
`chunkText` returns no chunk at all (the whitespace-only chunk is dropped),
not one chunk equal to the trimmed input. -/
theorem chunkText_no_breaks_counterexample :
    hasDoubleNL oneSpace = false ∧ (0 : Int) < 5 ∧
    (chunkText oneSpace 5 preT).length = 0 := by
  decide

/-- C3 (amended: the input must also have nonempty trimmed content): a text
with no run of two or more (possibly carriage-return-prefixed) newlines and
nonempty trimmed content is returned as exactly one chunk equal to the
whitespace-trimmed input, for every positive target size. -/
theorem chunkText_no_breaks (text : List Char) (target : Int) (pre : String)
    (h1 : hasDoubleNL text = false) (h2 : 0 < target) (h3 : trimList text ≠ []) :
    (chunkText text target pre).map (fun ch => ch.content) = [trimList text] := by
  have hlen : 0 < text.length := by
    rcases Nat.eq_zero_or_pos text.length with h0 | h
    · exact absurd (by rw [List.length_eq_zero.mp h0]; rfl) h3
    · exact h
  have hb : findBestBreakPoint (findParagraphBreaks text) 0
      (((0 : Nat) : Int) + target) = text.length := by
    rw [fpb_no_breaks h1]
    exact fbb_pair hlen _
  rw [chunkText_single text target pre hb h3]
  rfl

/-- C3, witness: a one-line text with no paragraph break becomes a single
chunk even with a tiny target size. -/
theorem chunkText_no_breaks_witness :
    hasDoubleNL singleLine = false ∧ (0 : Int) < 3 ∧ trimList singleLine ≠ [] ∧
    (chunkText singleLine 3 preT).map (fun ch => ch.content) = [trimList singleLine] :=
  ⟨by decide, by norm_num, by decide,
    chunkText_no_breaks singleLine 3 preT (by decide) (by norm_num) (by decide)⟩

/-- C4: for every text, positive size and title prefix, both `chunkText`
and `chunkBySize` number their chunks 1, 2, 3, ... in list order with no
gaps, title every chunk `"<prefix> <partNumber>"`, and `chunkText` emits
only chunks whose trimmed content is nonempty. -/
theorem chunk_part_numbering (text : List Char) (size : Int) (pre : String)
    (h : 0 < size) :
    ((chunkText text size pre).map (fun ch => ch.partNumber) =
        List.range' 1 (chunkText text size pre).length ∧
      ∀ ch ∈ chunkText text size pre,
        ch.title = pre ++ " " ++ toString ch.partNumber ∧ ch.content ≠ []) ∧
    ((chunkBySize text size pre).map (fun ch => ch.partNumber) =
        List.range' 1 (chunkBySize text size pre).length ∧
      ∀ ch ∈ chunkBySize text size pre,
        ch.title = pre ++ " " ++ toString ch.partNumber) :=
  ⟨chunkTextAux_numbering text (findParagraphBreaks text) size pre
      (text.length + 1) 0 1,
    chunkBySizeAux_numbering text size pre (text.length + 1) 0 1⟩

/-- C4, witness: consecutive numbering on the sample text. -/
theorem chunk_part_numbering_witness :
    (0 : Int) < 6 ∧
    (chunkText sampleText 6 samplePre).map (fun ch => ch.partNumber) =
      List.range' 1 (chunkText sampleText 6 samplePre).length :=
  ⟨by norm_num, (chunk_part_numbering sampleText 6 samplePre (by norm_num)).1.1⟩

/-- C5, counterexample: two spaces are shorter than target size 5, yet
`chunkText` returns no chunk (the whitespace-only chunk is dropped), not
exactly one. -/
theorem chunkText_short_counterexample :
    ((twoSpaces.length : Int) < 5) ∧ (chunkText twoSpaces 5 preT).length = 0 := by
  decide

/-- C5 (amended: the input must also have nonempty trimmed content): every
text with nonempty trimmed content whose length is smaller than the target
size is returned as exactly one chunk. -/
theorem chunkText_short (text : List Char) (target : Int) (pre : String)
    (h1 : (text.length : Int) < target) (h3 : trimList text ≠ []) :
    (chunkText text target pre).length = 1 := by
  have hlen : 0 < text.length := by
    rcases Nat.eq_zero_or_pos text.length with h0 | h
    · exact absurd (by rw [List.length_eq_zero.mp h0]; rfl) h3
    · exact h
  have hb : findBestBreakPoint (findParagraphBreaks text) 0
      (((0 : Nat) : Int) + target) = text.length := by
    have hex : ∃ bp ∈ findParagraphBreaks text,
        0 < bp ∧ (bp : Int) ≤ ((0 : Nat) : Int) + target :=
      ⟨text.length, fpb_mem_len text, hlen, by push_cast; omega⟩
    obtain ⟨hmem, hgt, hle, hmax⟩ := fbb_inRange hex
    have hub := fpb_mem_le hmem
    have hlb := hmax text.length (fpb_mem_len text) hlen (by push_cast; omega)
    omega
  rw [chunkText_single text target pre hb h3]
  rfl

/-- C5, witness: an eleven-character text with target size 50 yields one
chunk. -/
theorem chunkText_short_witness :
    ((singleLine.length : Int) < 50) ∧ trimList singleLine ≠ [] ∧
    (chunkText singleLine 50 preT).length = 1 :=
  ⟨by decide, by decide, chunkText_short singleLine 50 preT (by decide) (by decide)⟩

/-- C6: `chunkBySize` with chunk size 30 on any 100-character text yields
exactly 4 chunks of lengths 30, 30, 30 and 10. -/
theorem chunkBySize_hundred (text : List Char) (pre : String)
    (h : text.length = 100) :
    (chunkBySize text 30 pre).map (fun ch => ch.content.length) =
      [30, 30, 30, 10] := by
  have hc : chunkBySize text 30 pre = chunkBySizeAux text 30 pre 4 0 1 := by
    rw [chunkBySize]
    exact chunkBySizeAux_congr text 30 pre (text.length + 1) 4 0 1
      (by simp; omega) (by simp; omega)
  rw [hc, show (4 : Nat) = 3 + 1 from rfl, chunkBySizeAux_step 3 1 (by omega),
    show 0 + (30 : Int).toNat = 30 from rfl,
    show (3 : Nat) = 2 + 1 from rfl, chunkBySizeAux_step 2 2 (by omega),
    show 30 + (30 : Int).toNat = 60 from rfl,
    show (2 : Nat) = 1 + 1 from rfl, chunkBySizeAux_step 1 3 (by omega),
    show 60 + (30 : Int).toNat = 90 from rfl,
    show (1 : Nat) = 0 + 1 from rfl, chunkBySizeAux_step 0 4 (by omega),
    show 90 + (30 : Int).toNat = 120 from rfl,
    chunkBySizeAux_stop 0 5 (by omega)]
  simp [List.length_take, List.length_drop, h]

/-- C6, witness: on a concrete 100-character text. -/
theorem chunkBySize_hundred_witness :
    hundredAs.length = 100 ∧
    (chunkBySize hundredAs 30 preT).map (fun ch => ch.content.length) =
      [30, 30, 30, 10] :=
  ⟨by simp [hundredAs], chunkBySize_hundred hundredAs preT (by simp [hundredAs])⟩

/-- C7: for every positive size and title prefix, both chunkers return the
empty chunk list on the empty string. -/
theorem chunkers_empty_input (size : Int) (pre : String) (h : 0 < size) :
    chunkText [] size pre = [] ∧ chunkBySize [] size pre = [] :=
  ⟨rfl, rfl⟩

/-- C7, witness: at size 1. -/
theorem chunkers_empty_input_witness :
    (0 : Int) < 1 ∧ (chunkText [] 1 preT = [] ∧ chunkBySize [] 1 preT = []) :=
  ⟨by norm_num, chunkers_empty_input 1 preT (by norm_num)⟩

/-- C8: for every list of chunks (or documents) and every assignment of
per-item create-resource outcomes, `uploadChunks` (and `uploadDocuments`)
processes every item: the uploaded list is exactly the items whose call
succeeded and the failed list exactly the items whose call threw (so a
failure never stops later items, and each item lands in exactly one list,
in order), the uploaded and failed lengths sum to the input length, and
there is one id per uploaded item. -/
theorem upload_partition (chunks : List ChunkInfo) (docs : List DocumentInfo)
    (oc od : Nat → Except String String) :
    ((uploadChunks chunks oc).uploaded = chunks.enum.filterMap
        (fun p => match oc p.1 with | .ok _ => some p.2 | .error _ => none) ∧
      (uploadChunks chunks oc).failed = chunks.enum.filterMap
        (fun p => match oc p.1 with
          | .ok _ => none
          | .error e => some ⟨p.2.title, e⟩) ∧
      (uploadChunks chunks oc).uploaded.length +
        (uploadChunks chunks oc).failed.length = chunks.length ∧
      (uploadChunks chunks oc).ids.length = (uploadChunks chunks oc).uploaded.length) ∧
    ((uploadDocuments docs od).uploaded = docs.enum.filterMap
        (fun p => match od p.1 with | .ok _ => some p.2 | .error _ => none) ∧
      (uploadDocuments docs od).failed = docs.enum.filterMap
        (fun p => match od p.1 with
          | .ok _ => none
          | .error e => some ⟨p.2.title, e⟩) ∧
      (uploadDocuments docs od).uploaded.length +
        (uploadDocuments docs od).failed.length = docs.length ∧
      (uploadDocuments docs od).ids.length =
        (uploadDocuments docs od).uploaded.length) := by
  have h1 := uploadLoop_spec (fun c => c.title) oc chunks 0
  have h2 := uploadLoop_spec (fun d => d.title) od docs 0
  exact ⟨⟨h1.1, h1.2.1, h1.2.2.2.1, h1.2.2.2.2⟩,
    ⟨h2.1, h2.2.1, h2.2.2.2.1, h2.2.2.2.2⟩⟩

/-- C9: `chunkText` terminates for every text, every target size including
zero and negative values, and every title prefix: inside the text the
selected break point is strictly past the current start position, so the
start position strictly increases, and the loop result is independent of
any sufficient fuel. -/
theorem chunkText_terminates (text : List Char) (target : Int) (pre : String)
    (fuel : Nat) (hf : text.length ≤ fuel) :
    (∀ s, s < text.length →
      s < findBestBreakPoint (findParagraphBreaks text) s ((s : Int) + target)) ∧
    chunkTextAux text (findParagraphBreaks text) target pre fuel 0 1 =
      chunkText text target pre := by
  constructor
  · intro s hs
    exact (fbb_gt hs).1
  · rw [chunkText]
    exact chunkTextAux_congr text target pre fuel (text.length + 1) 0 1
      (by omega) (by omega)

/-- C9, witness: on the sample text with a negative target size and bare
minimum fuel the loop still terminates with the same result. -/
theorem chunkText_terminates_witness :
    sampleText.length ≤ 16 ∧
    chunkTextAux sampleText (findParagraphBreaks sampleText) (-3) preT 16 0 1 =
      chunkText sampleText (-3) preT :=
  ⟨by decide, (chunkText_terminates sampleText (-3) preT 16 (by decide)).2⟩

/-- C10: the references built by `createTableOfContents` (and
`createDocumentTableOfContents`) are one per input item in input order, and
each reference's half-open start/end span extracts exactly its text from
the generated table-of-contents content. -/
theorem toc_references_valid (chunks : List ChunkInfo) (docs : List DocumentInfo)
    (title ts : String) :
    ((createTableOfContents chunks title ts).2.map (fun r => r.text) =
        chunks.map (fun c => ("Part " ++ toString c.partNumber).toList) ∧
      ∀ r ∈ (createTableOfContents chunks title ts).2,
        extractList (createTableOfContents chunks title ts).1 r.start r.stop =
          r.text) ∧
    ((createDocumentTableOfContents docs title ts).2.map (fun r => r.text) =
        docs.map (fun d => d.title.toList) ∧
      ∀ r ∈ (createDocumentTableOfContents docs title ts).2,
        extractList (createDocumentTableOfContents docs title ts).1 r.start r.stop =
          r.text) := by
  have h1 := tocLoop_spec (chunks.map (fun c => ("Part " ++ toString c.partNumber).toList))
    (("# " ++ title ++ "\n\n" ++ "_Generated: " ++ ts ++ "_\n\n" ++ "## Parts\n\n").toList) 0
  have h2 := tocLoop_spec (docs.map (fun d => d.title.toList))
    (("# " ++ title ++ "\n\n" ++ "_Generated: " ++ ts ++ "_\n\n" ++ "## Documents\n\n").toList) 0
  exact ⟨⟨h1.1, fun r hr => (h1.2 r hr).2⟩, ⟨h2.1, fun r hr => (h2.2 r hr).2⟩⟩
